import Mathlib

/-!
Verification of the MakePass password generator (`src/makepass/makepass.py`).

The development shallowly embeds the program:

* the entropy estimator (`wordset_entropy`, `numeral_entropy`,
  `special_char_entropy`, `sampled_entropy`, `estimate_entropy`) is embedded
  over `ℝ` with `Real.logb 2` standing for `math.log2`;
* the generation pipeline (`random_stream`, `non_repeating`,
  `gen_alpha_passwords`, `base_passwords`, `constrain_word_length`) is embedded
  with an explicit draw sequence `ℕ → ℕ` standing for the random source, an
  explicit stream position, and a fuel parameter bounding the number of draws
  (the Python generators are unbounded; running out of fuel models
  non-termination);
* `main`'s validation and selection logic is embedded as a function returning
  `Option MainResult`, where `none` models non-termination, `.failure msg`
  models the error-message returns, `.password p` models printing a password,
  and `.crash` models an uncaught exception (`TypeError` from comparing `None`
  with an `int`, or `math.log2(0)` on an empty word set);
* Python's `float('inf')` upper bound is embedded as `(⊤ : WithTop ℕ)`.
-/

namespace MakePass

/-! ## Entropy estimator (lines 115–178 of the source) -/

/-- `wordset_entropy(word_set_size, word_count)`:
`sum(log2(word_set_size - n) for n in range(word_count))`.  The subtraction is
Python `int` subtraction, embedded as real subtraction of casts. -/
noncomputable def wordset_entropy (word_set_size word_count : ℕ) : ℝ :=
  ∑ n in Finset.range word_count, Real.logb 2 ((word_set_size : ℝ) - (n : ℝ))

/-- `numeral_entropy(append_numeral)`: `log2(10) if append_numeral else 0`. -/
noncomputable def numeral_entropy (append_numeral : Bool) : ℝ :=
  if append_numeral then Real.logb 2 10 else 0

/-- `special_char_entropy(special_chars)`:
`log2(len(special_chars)) if special_chars else 0`
(a Python string is truthy exactly when it is non-empty). -/
noncomputable def special_char_entropy (special_chars : String) : ℝ :=
  if special_chars ≠ "" then Real.logb 2 (special_chars.length : ℝ) else 0

/-- `sampled_entropy(sample_size, success_size)`:
`log2(success_size) - log2(sample_size)`. -/
noncomputable def sampled_entropy (sample_size success_size : ℕ) : ℝ :=
  Real.logb 2 (success_size : ℝ) - Real.logb 2 (sample_size : ℝ)

/-- `estimate_entropy(...)`: the sum of the four entropy terms. -/
noncomputable def estimate_entropy (word_set_size word_count : ℕ)
    (append_numeral : Bool) (special_chars : String)
    (sample_size success_size : ℕ) : ℝ :=
  wordset_entropy word_set_size word_count +
    numeral_entropy append_numeral +
    special_char_entropy special_chars +
    sampled_entropy sample_size success_size

/-! ## Generation pipeline (lines 34–101 of the source) -/

/-- `constrain_word_length(words, min_len, max_len)`: keep the words whose
length lies in the inclusive range.  The upper bound lives in `WithTop ℕ`
because `main` passes `float('inf')` for an unbounded maximum. -/
def constrain_word_length (words : List String) (min_len : ℕ)
    (max_len : WithTop ℕ) : List String :=
  words.filter fun w =>
    decide (min_len ≤ w.length) && decide ((w.length : WithTop ℕ) ≤ max_len)

/-- `random_stream(things)`: an infinite stream of random choices from
`things`.  The random source is embedded as a draw sequence `draws : ℕ → ℕ`;
the `k`-th choice is the element at index `draws k % length` (every index is
reachable, so every uniform-choice outcome is represented by some draw
sequence).  On the empty list the Python `choice` raises; the embedding
returns `""` there, and every theorem that relies on membership assumes the
list is non-empty. -/
def random_stream (things : List String) (draws : ℕ → ℕ) : ℕ → String :=
  fun k => things.getD (draws k % things.length) ""

/-- `islice(non_repeating(words), need)` over the stream `ws` starting at
position `pos` with already-seen set `seen`: pull draws one at a time,
skipping values already seen, until `need` fresh values are collected.
Returns the collected values in draw order together with the position of the
stream after the last pull, or `none` when `fuel` draws did not suffice
(modelling the unbounded Python loop: non-termination is "`none` for every
fuel"). -/
def non_repeating_take (ws : ℕ → String) :
    ℕ → ℕ → List String → ℕ → Option (List String × ℕ)
  | _, pos, _, 0 => some ([], pos)
  | 0, _, _, _ + 1 => none
  | fuel + 1, pos, seen, need + 1 =>
    let w := ws pos
    if w ∈ seen then
      non_repeating_take ws fuel (pos + 1) seen (need + 1)
    else
      match non_repeating_take ws fuel (pos + 1) (w :: seen) need with
      | none => none
      | some (l, p) => some (w :: l, p)

/-- One step of `gen_alpha_passwords(word_set, word_count)`: the next yielded
word-stem (the join of `word_count` distinct draws) together with the
position at which the shared word stream resumes for the following stem. -/
def gen_alpha_passwords (word_set : List String) (draws : ℕ → ℕ)
    (fuel pos word_count : ℕ) : Option (String × ℕ) :=
  match non_repeating_take (random_stream word_set draws) fuel pos []
      word_count with
  | none => none
  | some (l, p) => some (String.join l, p)

/-- The ten numeral characters `'0123456789'` drawn from in
`base_passwords`. -/
def digit_chars : List Char :=
  ['0', '1', '2', '3', '4', '5', '6', '7', '8', '9']

/-- The numeral component of the `idx`-th candidate: one draw from
`'0123456789'` when `append_numeral`, else the empty string. -/
def numeral_part (append_numeral : Bool) (ndraws : ℕ → ℕ) (idx : ℕ) :
    String :=
  if append_numeral then
    String.singleton (digit_chars.getD (ndraws idx % 10) '0')
  else ""

/-- The special-character component of the `idx`-th candidate: one draw from
`special_chars` when that string is non-empty (truthy), else the empty
string. -/
def special_part (special_chars : String) (sdraws : ℕ → ℕ) (idx : ℕ) :
    String :=
  if special_chars ≠ "" then
    String.singleton
      (special_chars.toList.getD (sdraws idx % special_chars.length) '-')
  else ""

/-- `islice(base_passwords(...), count)` starting at candidate index `idx`
with the word stream at position `pos`: the list of the next `count`
candidate passwords, each `stem ++ numeral ++ special` (`zip` of the
component generators, joined), or `none` if some stem generation runs out of
fuel. -/
def base_passwords_take (word_set : List String) (draws ndraws sdraws : ℕ → ℕ)
    (word_count : ℕ) (append_numeral : Bool) (special_chars : String)
    (fuel : ℕ) : ℕ → ℕ → ℕ → Option (List String)
  | 0, _, _ => some []
  | count + 1, idx, pos =>
    match gen_alpha_passwords word_set draws fuel pos word_count with
    | none => none
    | some (stem, pos2) =>
      match base_passwords_take word_set draws ndraws sdraws word_count
          append_numeral special_chars fuel count (idx + 1) pos2 with
      | none => none
      | some rest =>
        some ((stem ++ numeral_part append_numeral ndraws idx ++
          special_part special_chars sdraws idx) :: rest)

/-! ## `main` (lines 210–394 of the source) -/

/-- The observable outcome of a `main` run: the password printed to stdout,
an error-message string returned to the CLI wrapper, or an uncaught
exception (`TypeError` from comparing `None` with a number, `ValueError`
from `log2(0)` on an empty word set). -/
inductive MainResult
  | password (p : String)
  | failure (msg : String)
  | crash
  deriving DecidableEq, Repr

/-- Python truthiness of an optional integer argument: `None` and `0` are
falsy. -/
def truthy : Option ℕ → Bool
  | none => false
  | some n => n != 0

/-- Lines 244–250 of `main`: default the length bounds.  The first component
is `min_length` (`none` = still Python `None`), the second is `max_length`
(`⊤` = `float('inf')`). -/
def default_lengths (min_length max_length : Option ℕ) :
    Option ℕ × Option (WithTop ℕ) :=
  if min_length = none ∧ max_length = none then
    (some 24, some ⊤)
  else if truthy max_length ∧ ¬ truthy min_length then
    (max_length, max_length.map fun m => (m : WithTop ℕ))
  else if truthy min_length ∧ ¬ truthy max_length then
    (min_length, some ⊤)
  else
    (min_length, max_length.map fun m => (m : WithTop ℕ))

/-- The effective length bounds `main` filters with: the defaulted bounds,
with the minimum clamped to at least `1` (line 255), provided defaulting
left two comparable numbers with `min ≤ max`;  `none` when `main` errors
out (or crashes) before reaching the filter. -/
def effective_bounds (min_length max_length : Option ℕ) :
    Option (ℕ × WithTop ℕ) :=
  match default_lengths min_length max_length with
  | (some a, some b) =>
    if (a : WithTop ℕ) > b then none else some (max 1 a, b)
  | _ => none

/-- Line 294: `re.search(r'[a-zA-Z\d\s]', special_set)` — is some character
of the special set alphabetic, numeric or whitespace? -/
def invalid_special_char (special_set : String) : Bool :=
  special_set.toList.any fun c => c.isAlpha || c.isDigit || c.isWhitespace

/-- Render the maximum length the way `str.format` renders it in the error
messages (`float('inf')` prints as `inf`). -/
def format_max_length : WithTop ℕ → String :=
  fun m => if m = ⊤ then "inf" else toString (m.untop' 0)

/-- Lines 320–326 of `main`: filter the sampled candidates by length and
take the first one; if the filtered batch is empty, return the exhaustion
error message. -/
def select_password (cands : List String) (min_length : ℕ)
    (max_length : WithTop ℕ) : MainResult :=
  match (constrain_word_length cands min_length max_length).head? with
  | some p => MainResult.password p
  | none => MainResult.failure "Couldn't generate password matching constraints"

/-- The number of suffix characters appended to a stem (lines 258–267):
one for the numeral unless `no_append_numeral`, one more if `append_char`. -/
def suffix_size (no_append_numeral append_char : Bool) : ℕ :=
  (if no_append_numeral then 0 else 1) + (if append_char then 1 else 0)

/-- Line 292: `special_set if append_char else ''`. -/
def effective_special_set (append_char : Bool) (special_set : String) :
    String :=
  if append_char then special_set else ""

/-- Lines 309–326 of `main`: produce the infinite candidate stream, sample
`sample_size` of it, filter by length and take the first survivor (or the
exhaustion error).  `none` models a stem generation that never finishes. -/
def generation_stage (word_set : List String) (draws ndraws sdraws : ℕ → ℕ)
    (word_count : ℕ) (append_numeral : Bool) (special : String)
    (fuel sample_size : ℕ) (min_len : ℕ) (max_len : WithTop ℕ) :
    Option MainResult :=
  match base_passwords_take word_set draws ndraws sdraws word_count
      append_numeral special fuel sample_size 0 0 with
  | none => none
  | some cs => some (select_password cs min_len max_len)

/-- `main`, lines 210–394.  `words` is the word-list resource (the lines of
`data/words.txt`), `draws`/`ndraws`/`sdraws` the random source for the word,
numeral and special-character streams, and `fuel` bounds the draws spent on
any one stem: `none` models a run that never terminates.  The diagnostic
stderr output (entropy report, warnings, counts) is not modelled; the result
is what the run produces as primary outcome. -/
def main (words : List String) (draws ndraws sdraws : ℕ → ℕ) (fuel : ℕ)
    (word_count : ℕ) (min_length max_length : Option ℕ)
    (append_char : Bool) (special_set : String) (no_append_numeral : Bool)
    (min_word max_word : ℕ) (sample_size top_words : ℕ) :
    Option MainResult :=
  if min_word > max_word then
    some (.failure "min_word must be less than or equal to max_word")
  else
    match default_lengths min_length max_length with
    | (some min_len0, some max_len) =>
      if (min_len0 : WithTop ℕ) > max_len then
        some (.failure "min_length must be less than or equal to max_length")
      else
        let min_len := max 1 min_len0
        let min_word2 := max 1 min_word
        let min_possible_size := min_word2 * word_count +
          suffix_size no_append_numeral append_char
        let max_possible_size := max_word * word_count +
          suffix_size no_append_numeral append_char
        if (min_possible_size : WithTop ℕ) > max_len then
          some (.failure ("Impossible constraints: minumum possible size (" ++
            toString min_possible_size ++
            ") greater than maximum allowed password length (" ++
            format_max_length max_len ++ ")"))
        else if max_possible_size < min_len then
          some (.failure ("Impossible constraints: maximum possible size (" ++
            toString max_possible_size ++
            ") less than minimum allowed password length (" ++
            toString min_len ++ ")"))
        else
          let word_set := constrain_word_length (words.take top_words)
            min_word2 (max_word : WithTop ℕ)
          let special := effective_special_set append_char special_set
          if invalid_special_char special then
            some (.failure ("Invalid special character {char} in special " ++
              "character set. Special characters should not be alpha, " ++
              "numeric, or whitespace."))
          else if word_set.length = 0 then
            some .crash
          else
            generation_stage word_set draws ndraws sdraws word_count
              (!no_append_numeral) special fuel sample_size min_len max_len
    | _ => some .crash

/-! ## Password decomposition (`password_parts`, lines 89–101)

The source matches `^((?:[A-Z][a-z]*)+)([0-9]?)([^a-zA-Z0-9]?)$` and then
splits group 1 with `re.findall(r'[A-Z][a-z]*', ...)`.  The three character
classes are pairwise disjoint and none can match a letter, so the regex is
deterministic: group 1 must be the maximal alphabetic prefix (non-empty,
starting with an uppercase letter), followed by at most one digit, at most
one non-alphanumeric character, and the end of the string; `findall` splits
the alphabetic prefix before each uppercase letter.  One Python quirk must
be embedded too: outside MULTILINE mode `$` matches at the end of the
string *or just before a newline at the end of the string*, so one trailing
`'\n'` that no group consumed is tolerated (e.g. `"Apple!\n"` parses as
`(["Apple"], "", "!")`).  The embedding implements exactly that reading;
`none` models the raised `ValueError` (the spec's FormatError). -/

/-- Helper for the `findall` split: `acc` holds the current (reversed)
segment, which always starts with an uppercase letter; a lowercase character
extends the current segment, anything else closes it and opens a new one. -/
def split_caps_go : List Char → List Char → List String
  | acc, [] => [String.mk acc.reverse]
  | acc, c :: cs =>
    if c.isLower then split_caps_go (c :: acc) cs
    else String.mk acc.reverse :: split_caps_go [c] cs

/-- `re.findall(r'[A-Z][a-z]*', s)` on an alphabetic string starting with an
uppercase letter: split before each uppercase letter. -/
def split_caps : List Char → List String
  | [] => []
  | c :: cs => split_caps_go [c] cs

/-- `password_parts(password)`, lines 92–101: decompose a password into its
word parts, numeral part and special-character part, or `none` (the
`ValueError`) when the regex does not match.  After the maximal alphabetic
prefix, the greedy optional groups and the `$` rule leave exactly these
accepting shapes for the remainder: nothing; one digit; one non-alphanumeric
character; a digit then a non-alphanumeric character; any of those followed
by one unconsumed trailing `'\n'` (a digit then `'\n'` is the fourth shape
with the newline consumed as the special character, so the extra cases are
a non-digit non-alphanumeric then `'\n'`, and digit, non-alphanumeric,
`'\n'`). -/
def password_parts (password : String) :
    Option (List String × String × String) :=
  let cs := password.toList
  let letters := cs.takeWhile Char.isAlpha
  let rest := cs.dropWhile Char.isAlpha
  match letters with
  | [] => none
  | c :: _ =>
    if c.isUpper then
      match rest with
      | [] => some (split_caps letters, "", "")
      | [a] =>
        if a.isDigit then some (split_caps letters, String.mk [a], "")
        else if !a.isAlphanum then
          some (split_caps letters, "", String.mk [a])
        else none
      | [a, b] =>
        if a.isDigit && !b.isAlphanum then
          some (split_caps letters, String.mk [a], String.mk [b])
        else if !a.isAlphanum && b = '\n' then
          some (split_caps letters, "", String.mk [a])
        else none
      | [a, b, e] =>
        if a.isDigit && !b.isAlphanum && e = '\n' then
          some (split_caps letters, String.mk [a], String.mk [b])
        else none
      | _ => none
    else none

/-- A word as generated: non-empty, uppercase first letter, lowercase rest
(the source data set convention, i.e. exactly the regex `[A-Z][a-z]*` with
at least one character). -/
def cap_word (w : String) : Prop :=
  ∃ c cs, w.toList = c :: cs ∧ c.isUpper = true ∧ ∀ x ∈ cs, x.isLower = true

/-- A numeral part as generated: empty, or one digit character. -/
def numeral_part_ok (d : String) : Prop :=
  d = "" ∨ ∃ c, d = String.mk [c] ∧ c.isDigit = true

/-- A special-character part as generated: empty, or one non-alphanumeric
character. -/
def special_part_ok (s : String) : Prop :=
  s = "" ∨ ∃ c, s = String.mk [c] ∧ c.isAlphanum = false

/-- Composing a password from known parts the way the generator does
(lines 76–86): words joined in order, then the numeral, then the special
character, with no separators. -/
def compose_password (word_parts : List String)
    (number_part char_part : String) : String :=
  String.join word_parts ++ number_part ++ char_part

/-! ## Theorems for the entropy claims -/

/-- **C1.** For `word_count ≤ N`, `wordset_entropy N word_count` is the sum
over `n = 0 .. word_count-1` of `log2 (N - n)` (with `N - n` a natural
number); in particular `wordset_entropy 4 2 = log2 4 + log2 3 = 2 + log2 3`. -/
theorem wordset_entropy_eq_sum_logb (N word_count : ℕ) (h : word_count ≤ N) :
    wordset_entropy N word_count =
      ∑ n in Finset.range word_count, Real.logb 2 ((N - n : ℕ) : ℝ) ∧
    wordset_entropy 4 2 = Real.logb 2 4 + Real.logb 2 3 ∧
    wordset_entropy 4 2 = 2 + Real.logb 2 3 := by
  have hsum : ∀ M wc : ℕ, wc ≤ M → wordset_entropy M wc =
      ∑ n in Finset.range wc, Real.logb 2 ((M - n : ℕ) : ℝ) := by
    intro M wc hwc
    unfold wordset_entropy
    refine Finset.sum_congr rfl fun n hn => ?_
    have hn' : n ≤ M := le_trans (le_of_lt (Finset.mem_range.mp hn)) hwc
    rw [Nat.cast_sub hn']
  have h42 : wordset_entropy 4 2 = Real.logb 2 4 + Real.logb 2 3 := by
    unfold wordset_entropy
    rw [Finset.sum_range_succ, Finset.sum_range_succ, Finset.sum_range_zero]
    norm_num
  refine ⟨hsum N word_count h, h42, ?_⟩
  rw [h42]
  have : Real.logb 2 4 = 2 := by
    have : ((4 : ℝ)) = 2 ^ (2 : ℕ) := by norm_num
    rw [this, Real.logb_pow, Real.logb_self_eq_one (by norm_num)]
    norm_num
  rw [this]

/-- Witness for C1 at `N = 4`, `word_count = 2`. -/
theorem wordset_entropy_eq_sum_logb_witness :
    wordset_entropy 4 2 =
      ∑ n in Finset.range 2, Real.logb 2 ((4 - n : ℕ) : ℝ) ∧
    wordset_entropy 4 2 = Real.logb 2 4 + Real.logb 2 3 ∧
    wordset_entropy 4 2 = 2 + Real.logb 2 3 :=
  wordset_entropy_eq_sum_logb 4 2 (by norm_num)

/-- **C5, counterexample.** The claim "for all `N > wc`,
`wordset_entropy N (wc+1) > wordset_entropy N wc`" fails at `N = 2`,
`wc = 1`: the added term is `log2 (2 - 1) = log2 1 = 0`, so the two
entropies are equal. -/
theorem wordset_entropy_not_strict_mono_word_count :
    ¬ wordset_entropy 2 2 > wordset_entropy 2 1 := by
  have h2 : wordset_entropy 2 2 = Real.logb 2 2 + Real.logb 2 1 := by
    unfold wordset_entropy
    rw [Finset.sum_range_succ, Finset.sum_range_succ, Finset.sum_range_zero]
    norm_num
  have h1 : wordset_entropy 2 1 = Real.logb 2 2 := by
    unfold wordset_entropy
    rw [Finset.sum_range_succ, Finset.sum_range_zero]
    norm_num
  rw [h2, h1, Real.logb_one]
  simp

/-- **C5, amended.** `wordset_entropy` strictly increases in `word_count`
provided the larger word count is still below `N` (`wc + 1 < N`; for
`wc + 1 = N` the added term `log2 1` is zero and the entropy is unchanged),
and strictly increases in `N` for any fixed `word_count` with
`1 ≤ word_count ≤ N`. -/
theorem wordset_entropy_strict_mono :
    (∀ N wc : ℕ, wc + 1 < N →
      wordset_entropy N (wc + 1) > wordset_entropy N wc) ∧
    (∀ N wc : ℕ, 1 ≤ wc → wc ≤ N →
      wordset_entropy (N + 1) wc > wordset_entropy N wc) := by
  constructor
  · intro N wc hlt
    unfold wordset_entropy
    rw [Finset.sum_range_succ]
    have hterm : 0 < Real.logb 2 ((N : ℝ) - (wc : ℝ)) := by
      apply Real.logb_pos (by norm_num)
      have : (wc : ℝ) + 1 < (N : ℝ) := by exact_mod_cast hlt
      linarith
    linarith
  · intro N wc hwc hN
    unfold wordset_entropy
    apply Finset.sum_lt_sum_of_nonempty
    · exact Finset.nonempty_range_iff.mpr (by omega)
    · intro i hi
      have hiN : i < N := lt_of_lt_of_le (Finset.mem_range.mp hi) hN
      have hpos : (0 : ℝ) < (N : ℝ) - (i : ℝ) := by
        have : (i : ℝ) < (N : ℝ) := by exact_mod_cast hiN
        linarith
      apply Real.logb_lt_logb (by norm_num) hpos
      push_cast
      linarith

/-- Witness for the amended C5 at `N = 3, wc = 1` (monotone in the word
count) and `N = 1, wc = 1` (monotone in the word-set size). -/
theorem wordset_entropy_strict_mono_witness :
    wordset_entropy 3 2 > wordset_entropy 3 1 ∧
    wordset_entropy 2 1 > wordset_entropy 1 1 :=
  ⟨wordset_entropy_strict_mono.1 3 1 (by norm_num),
   wordset_entropy_strict_mono.2 1 1 (by norm_num) (by norm_num)⟩

/-- **C6.** `sampled_entropy sample success = log2 success - log2 sample`;
for `1 ≤ success ≤ sample` it is nonpositive, and it vanishes exactly when
`success = sample`. -/
theorem sampled_entropy_spec (sample_size success_size : ℕ)
    (h1 : 1 ≤ success_size) (h2 : success_size ≤ sample_size) :
    sampled_entropy sample_size success_size =
      Real.logb 2 (success_size : ℝ) - Real.logb 2 (sample_size : ℝ) ∧
    sampled_entropy sample_size success_size ≤ 0 ∧
    (sampled_entropy sample_size success_size = 0 ↔
      success_size = sample_size) := by
  have hpos : (0 : ℝ) < (success_size : ℝ) := by exact_mod_cast h1
  have hle : (success_size : ℝ) ≤ (sample_size : ℝ) := by exact_mod_cast h2
  refine ⟨rfl, ?_, ?_⟩
  · have := Real.logb_le_logb_of_le (b := 2) (by norm_num) hpos hle
    unfold sampled_entropy
    linarith
  · constructor
    · intro h0
      by_contra hne
      have hlt : success_size < sample_size := lt_of_le_of_ne h2 hne
      have : Real.logb 2 (success_size : ℝ) < Real.logb 2 (sample_size : ℝ) :=
        Real.logb_lt_logb (by norm_num) hpos (by exact_mod_cast hlt)
      unfold sampled_entropy at h0
      linarith
    · intro h
      subst h
      unfold sampled_entropy
      ring

/-- Witness for C6 at `sample_size = 2`, `success_size = 1`. -/
theorem sampled_entropy_spec_witness :
    sampled_entropy 2 1 =
      Real.logb 2 ((1 : ℕ) : ℝ) - Real.logb 2 ((2 : ℕ) : ℝ) ∧
    sampled_entropy 2 1 ≤ 0 ∧
    (sampled_entropy 2 1 = 0 ↔ 1 = 2) :=
  sampled_entropy_spec 2 1 (by norm_num) (by norm_num)

/-- **C7.** `estimate_entropy` is the sum of exactly the four terms: the
word-selection entropy, `log2 10` when a numeral is appended (else `0`),
`log2 |special_chars|` when the special set is non-empty (else `0`), and the
sampling correction; moreover a one-character special set contributes
exactly `0` bits. -/
theorem estimate_entropy_spec (word_set_size word_count : ℕ)
    (append_numeral : Bool) (special_chars : String)
    (sample_size success_size : ℕ) :
    estimate_entropy word_set_size word_count append_numeral special_chars
        sample_size success_size =
      wordset_entropy word_set_size word_count +
        (if append_numeral then Real.logb 2 10 else 0) +
        (if special_chars ≠ "" then Real.logb 2 (special_chars.length : ℝ)
          else 0) +
        sampled_entropy sample_size success_size ∧
    (∀ t : String, t.length = 1 → special_char_entropy t = 0) ∧
    special_char_entropy "" = 0 := by
  refine ⟨rfl, ?_, ?_⟩
  · intro t ht
    have hne : t ≠ "" := by
      intro h
      rw [h] at ht
      simp at ht
    unfold special_char_entropy
    rw [if_pos hne, ht]
    norm_num
  · unfold special_char_entropy
    simp

/-- Witness for C7 (in particular the singleton special set `"!"`
contributing zero bits), at concrete arguments. -/
theorem estimate_entropy_spec_witness :
    estimate_entropy 4 2 true "!" 10 10 =
      wordset_entropy 4 2 +
        (if true then Real.logb 2 10 else 0) +
        (if ("!" : String) ≠ "" then Real.logb 2 (("!" : String).length : ℝ)
          else 0) +
        sampled_entropy 10 10 ∧
    (∀ t : String, t.length = 1 → special_char_entropy t = 0) ∧
    special_char_entropy "" = 0 :=
  estimate_entropy_spec 4 2 true "!" 10 10

/-! ## Lemmas about the sampler -/

/-- What a successful `non_repeating_take` returns: exactly `need` values,
pairwise distinct, none of them previously seen, all of them values of the
underlying stream. -/
theorem non_repeating_take_spec (ws : ℕ → String) :
    ∀ (fuel pos : ℕ) (seen : List String) (need : ℕ) (l : List String)
      (pos2 : ℕ),
      non_repeating_take ws fuel pos seen need = some (l, pos2) →
      l.length = need ∧ l.Nodup ∧ (∀ w ∈ l, w ∉ seen) ∧
        ∀ w ∈ l, ∃ k, w = ws k := by
  intro fuel
  induction fuel with
  | zero =>
    intro pos seen need l pos2 h
    cases need with
    | zero =>
      simp only [non_repeating_take, Option.some.injEq, Prod.mk.injEq] at h
      obtain ⟨hl, _⟩ := h
      subst hl
      simp
    | succ n => simp [non_repeating_take] at h
  | succ fuel ih =>
    intro pos seen need l pos2 h
    cases need with
    | zero =>
      simp only [non_repeating_take, Option.some.injEq, Prod.mk.injEq] at h
      obtain ⟨hl, _⟩ := h
      subst hl
      simp
    | succ n =>
      rw [non_repeating_take] at h
      by_cases hmem : ws pos ∈ seen
      · rw [if_pos hmem] at h
        exact ih (pos + 1) seen (n + 1) l pos2 h
      · rw [if_neg hmem] at h
        cases heq : non_repeating_take ws fuel (pos + 1) (ws pos :: seen) n
          with
        | none => rw [heq] at h; exact absurd h (by simp)
        | some lp =>
          obtain ⟨l2, p2⟩ := lp
          rw [heq] at h
          simp only [Option.some.injEq, Prod.mk.injEq] at h
          obtain ⟨hl, _⟩ := h
          obtain ⟨hlen, hnodup, hseen, hvals⟩ :=
            ih (pos + 1) (ws pos :: seen) n l2 p2 heq
          subst hl
          refine ⟨by simp [hlen], ?_, ?_, ?_⟩
          · refine List.nodup_cons.mpr ⟨?_, hnodup⟩
            intro hin
            exact (hseen _ hin) (List.mem_cons_self _ _)
          · intro w hw
            rcases List.mem_cons.mp hw with hw | hw
            · subst hw; exact hmem
            · intro hws
              exact (hseen w hw) (List.mem_cons_of_mem _ hws)
          · intro w hw
            rcases List.mem_cons.mp hw with hw | hw
            · exact ⟨pos, hw⟩
            · exact hvals w hw

/-- Every value of the embedded random stream over a non-empty list is an
element of that list. -/
theorem random_stream_mem (word_set : List String) (draws : ℕ → ℕ)
    (h : word_set ≠ []) (k : ℕ) :
    random_stream word_set draws k ∈ word_set := by
  unfold random_stream
  have hlen : 0 < word_set.length := List.length_pos.mpr h
  have hidx : draws k % word_set.length < word_set.length :=
    Nat.mod_lt _ hlen
  rw [List.getD_eq_getElem _ _ hidx]
  exact List.getElem_mem hidx

/-- **C4.** Every word-stem produced by the word sampler is the
concatenation, in draw order, of `word_count` pairwise-distinct words of the
word set. -/
theorem gen_alpha_passwords_distinct (word_set : List String)
    (draws : ℕ → ℕ) (fuel pos word_count : ℕ) (stem : String) (pos2 : ℕ)
    (hne : word_set ≠ [])
    (h : gen_alpha_passwords word_set draws fuel pos word_count =
      some (stem, pos2)) :
    ∃ l : List String, stem = String.join l ∧ l.Nodup ∧
      l.length = word_count ∧ ∀ w ∈ l, w ∈ word_set := by
  unfold gen_alpha_passwords at h
  cases heq : non_repeating_take (random_stream word_set draws) fuel pos []
      word_count with
  | none => rw [heq] at h; exact absurd h (by simp)
  | some lp =>
    obtain ⟨l, p⟩ := lp
    rw [heq] at h
    simp only [Option.some.injEq, Prod.mk.injEq] at h
    obtain ⟨hstem, _⟩ := h
    obtain ⟨hlen, hnodup, _, hvals⟩ :=
      non_repeating_take_spec _ _ _ _ _ _ _ heq
    refine ⟨l, hstem.symm, hnodup, hlen, fun w hw => ?_⟩
    obtain ⟨k, hk⟩ := hvals w hw
    rw [hk]
    exact random_stream_mem word_set draws hne k

/-- Witness for C4: the stem `"AppleBanana"` produced from the two-word set
decomposes into two distinct words of the set. -/
theorem gen_alpha_passwords_distinct_witness :
    ∃ l : List String, "AppleBanana" = String.join l ∧ l.Nodup ∧
      l.length = 2 ∧ ∀ w ∈ l, w ∈ ["Apple", "Banana"] :=
  gen_alpha_passwords_distinct ["Apple", "Banana"] (fun k => k) 4 0 2
    "AppleBanana" 2 (by decide) (by decide)

/-- A successful `non_repeating_take` of `need` fresh values from a stream
over `word_set` forces `need ≤ word_set.length`; contrapositive: asking for
more distinct words than the set holds can never succeed, whatever the draw
sequence and however many draws are allowed. -/
theorem non_repeating_take_none (word_set : List String) (draws : ℕ → ℕ)
    (hne : word_set ≠ []) (need : ℕ) (hlt : word_set.length < need)
    (fuel pos : ℕ) :
    non_repeating_take (random_stream word_set draws) fuel pos [] need =
      none := by
  cases heq : non_repeating_take (random_stream word_set draws) fuel pos []
      need with
  | none => rfl
  | some lp =>
    obtain ⟨l, p⟩ := lp
    obtain ⟨hlen, hnodup, _, hvals⟩ :=
      non_repeating_take_spec _ _ _ _ _ _ _ heq
    have hsub : l.toFinset ⊆ word_set.toFinset := by
      intro w hw
      rw [List.mem_toFinset] at hw ⊢
      obtain ⟨k, hk⟩ := hvals w hw
      rw [hk]
      exact random_stream_mem word_set draws hne k
    have hcard : l.length ≤ word_set.length := by
      calc l.length = l.toFinset.card :=
            (List.toFinset_card_of_nodup hnodup).symm
        _ ≤ word_set.toFinset.card := Finset.card_le_card hsub
        _ ≤ word_set.length := List.toFinset_card_le word_set
    omega

/-- A sampled batch, when it terminates, has exactly `count` candidates. -/
theorem base_passwords_take_length (word_set : List String)
    (draws ndraws sdraws : ℕ → ℕ) (word_count : ℕ) (append_numeral : Bool)
    (special_chars : String) (fuel : ℕ) :
    ∀ (count idx pos : ℕ) (cs : List String),
      base_passwords_take word_set draws ndraws sdraws word_count
        append_numeral special_chars fuel count idx pos = some cs →
      cs.length = count := by
  intro count
  induction count with
  | zero =>
    intro idx pos cs h
    simp only [base_passwords_take, Option.some.injEq] at h
    rw [← h]
    rfl
  | succ n ih =>
    intro idx pos cs h
    rw [base_passwords_take] at h
    cases hg : gen_alpha_passwords word_set draws fuel pos word_count with
    | none => rw [hg] at h; exact absurd h (by simp)
    | some sp =>
      obtain ⟨stem, pos2⟩ := sp
      rw [hg] at h
      dsimp only at h
      cases hr : base_passwords_take word_set draws ndraws sdraws word_count
          append_numeral special_chars fuel n (idx + 1) pos2 with
      | none => rw [hr] at h; exact absurd h (by simp)
      | some rest =>
        rw [hr] at h
        simp only [Option.some.injEq] at h
        rw [← h]
        simp [ih (idx + 1) pos2 rest hr]

/-- If every stem generation diverges, so does the whole (non-empty) batch. -/
theorem base_passwords_take_none (word_set : List String)
    (draws ndraws sdraws : ℕ → ℕ) (word_count : ℕ) (append_numeral : Bool)
    (special_chars : String) (fuel : ℕ)
    (hgen : ∀ pos, gen_alpha_passwords word_set draws fuel pos word_count =
      none) :
    ∀ (count idx pos : ℕ), 0 < count →
      base_passwords_take word_set draws ndraws sdraws word_count
        append_numeral special_chars fuel count idx pos = none := by
  intro count idx pos hc
  cases count with
  | zero => omega
  | succ n =>
    rw [base_passwords_take, hgen pos]

/-! ## Lemmas about `main` -/

/-- A password selected from a batch lies within the filter bounds and is
the head of the filtered batch. -/
theorem select_password_bounds (cands : List String) (a : ℕ) (b : WithTop ℕ)
    (p : String) (h : select_password cands a b = .password p) :
    a ≤ p.length ∧ (p.length : WithTop ℕ) ≤ b ∧
      (constrain_word_length cands a b).head? = some p := by
  unfold select_password at h
  cases hh : (constrain_word_length cands a b).head? with
  | none => rw [hh] at h; exact absurd h (by simp)
  | some q =>
    rw [hh] at h
    simp only [MainResult.password.injEq] at h
    subst h
    have hmem : q ∈ constrain_word_length cands a b :=
      List.mem_of_mem_head? (by rw [hh]; rfl)
    have hpred := (List.mem_filter.mp hmem).2
    simp only [Bool.and_eq_true, decide_eq_true_eq] at hpred
    exact ⟨hpred.1, hpred.2, rfl⟩

/-- If a `main` run prints a password, the run reached the generation stage:
the defaulted bounds exist, the batch of `sample_size` candidates was fully
generated from the filtered word set, and the password was selected from
that batch with the effective bounds. -/
theorem main_password_src (words : List String) (draws ndraws sdraws : ℕ → ℕ)
    (fuel : ℕ) (word_count : ℕ) (min_length max_length : Option ℕ)
    (append_char : Bool) (special_set : String) (no_append_numeral : Bool)
    (min_word max_word : ℕ) (sample_size top_words : ℕ) (p : String)
    (h : main words draws ndraws sdraws fuel word_count min_length max_length
      append_char special_set no_append_numeral min_word max_word sample_size
      top_words = some (.password p)) :
    ∃ a b cs,
      effective_bounds min_length max_length = some (a, b) ∧
      base_passwords_take
        (constrain_word_length (words.take top_words) (max 1 min_word)
          (max_word : WithTop ℕ))
        draws ndraws sdraws word_count (!no_append_numeral)
        (effective_special_set append_char special_set) fuel sample_size 0 0 =
        some cs ∧
      select_password cs a b = .password p := by
  unfold main at h
  split at h
  · exact absurd h (by simp)
  split at h
  case _ min_len0 max_len heq =>
    split at h
    · exact absurd h (by simp)
    next hgt =>
      dsimp only at h
      split at h
      · exact absurd h (by simp)
      split at h
      · exact absurd h (by simp)
      split at h
      · exact absurd h (by simp)
      split at h
      · exact absurd h (by simp)
      unfold generation_stage at h
      split at h
      · exact absurd h (by simp)
      next cs hcs =>
        simp only [Option.some.injEq] at h
        refine ⟨max 1 min_len0, max_len, cs, ?_, hcs, h⟩
        unfold effective_bounds
        rw [heq]
        dsimp only
        rw [if_neg hgt]
  case _ => exact absurd h (by simp)

/-- **C2.** Every password a `main` run returns as its primary result lies
within the effective (possibly defaulted) length bounds. -/
theorem main_password_length (words : List String)
    (draws ndraws sdraws : ℕ → ℕ) (fuel word_count : ℕ)
    (min_length max_length : Option ℕ) (append_char : Bool)
    (special_set : String) (no_append_numeral : Bool)
    (min_word max_word sample_size top_words : ℕ) (p : String)
    (h : main words draws ndraws sdraws fuel word_count min_length max_length
      append_char special_set no_append_numeral min_word max_word sample_size
      top_words = some (.password p)) :
    ∃ a b, effective_bounds min_length max_length = some (a, b) ∧
      a ≤ p.length ∧ (p.length : WithTop ℕ) ≤ b := by
  obtain ⟨a, b, cs, hab, _, hsel⟩ := main_password_src words draws ndraws
    sdraws fuel word_count min_length max_length append_char special_set
    no_append_numeral min_word max_word sample_size top_words p h
  obtain ⟨h1, h2, _⟩ := select_password_bounds cs a b p hsel
  exact ⟨a, b, hab, h1, h2⟩

/-- Witness for C2: a concrete run returning `"AppleBanana"` under the
bounds `min_length = 1`, `max_length` unbounded. -/
theorem main_password_length_witness :
    ∃ a b, effective_bounds (some 1) none = some (a, b) ∧
      a ≤ ("AppleBanana" : String).length ∧
      (("AppleBanana" : String).length : WithTop ℕ) ≤ b :=
  main_password_length ["Apple", "Banana"] (fun k => k) (fun _ => 0)
    (fun _ => 0) 4 2 (some 1) none false "-_()/.,?!;:" true 4 8 1 2
    "AppleBanana" (by decide)

/-- **C3.** A terminating `main` run samples exactly `sample_size`
candidates; a returned password is the head of the length-filtered batch
(the first acceptable candidate in iteration order); and when no candidate
of the batch passes the filter, the selection step — the last step of
`main` — immediately yields the descriptive exhaustion error, not a
password. -/
theorem main_first_success (words : List String)
    (draws ndraws sdraws : ℕ → ℕ) (fuel word_count : ℕ)
    (min_length max_length : Option ℕ) (append_char : Bool)
    (special_set : String) (no_append_numeral : Bool)
    (min_word max_word sample_size top_words : ℕ) (r : MainResult)
    (h : main words draws ndraws sdraws fuel word_count min_length max_length
      append_char special_set no_append_numeral min_word max_word sample_size
      top_words = some r) :
    (∀ p, r = .password p →
      ∃ a b cs,
        effective_bounds min_length max_length = some (a, b) ∧
        base_passwords_take
          (constrain_word_length (words.take top_words) (max 1 min_word)
            (max_word : WithTop ℕ))
          draws ndraws sdraws word_count (!no_append_numeral)
          (effective_special_set append_char special_set) fuel sample_size
          0 0 = some cs ∧
        cs.length = sample_size ∧
        (constrain_word_length cs a b).head? = some p) ∧
    (∀ (cands : List String) (a : ℕ) (b : WithTop ℕ),
      constrain_word_length cands a b = [] →
      select_password cands a b =
        .failure "Couldn't generate password matching constraints") := by
  constructor
  · intro p hp
    subst hp
    obtain ⟨a, b, cs, hab, hcs, hsel⟩ := main_password_src words draws ndraws
      sdraws fuel word_count min_length max_length append_char special_set
      no_append_numeral min_word max_word sample_size top_words p h
    obtain ⟨_, _, hhead⟩ := select_password_bounds cs a b p hsel
    exact ⟨a, b, cs, hab, hcs,
      base_passwords_take_length _ _ _ _ _ _ _ _ _ _ _ _ hcs, hhead⟩
  · intro cands a b hempty
    unfold select_password
    rw [hempty]
    rfl

/-- Witness for C3 at a concrete run that returns `"AppleBanana"` from a
batch of `sample_size = 1` candidates. -/
theorem main_first_success_witness :
    (∀ p, MainResult.password "AppleBanana" = .password p →
      ∃ a b cs,
        effective_bounds (some 1) none = some (a, b) ∧
        base_passwords_take
          (constrain_word_length ((["Apple", "Banana"] : List String).take 2)
            (max 1 4) ((8 : ℕ) : WithTop ℕ))
          (fun k => k) (fun _ => 0) (fun _ => 0) 2 (!true)
          (effective_special_set false "-_()/.,?!;:") 4 1 0 0 = some cs ∧
        cs.length = 1 ∧
        (constrain_word_length cs a b).head? = some p) ∧
    (∀ (cands : List String) (a : ℕ) (b : WithTop ℕ),
      constrain_word_length cands a b = [] →
      select_password cands a b =
        .failure "Couldn't generate password matching constraints") :=
  main_first_success ["Apple", "Banana"] (fun k => k) (fun _ => 0)
    (fun _ => 0) 4 2 (some 1) none false "-_()/.,?!;:" true 4 8 1 2
    (.password "AppleBanana") (by decide)

/-- **C10.** Supplying a non-zero `max_length` without `min_length` makes
`main` use `max_length` as both bounds, so any returned password has exactly
`max_length` characters; only when both bounds are absent do the bounds
default to `min_length = 24` with an unbounded maximum. -/
theorem main_max_length_only (m : ℕ) (hm : m ≠ 0) (words : List String)
    (draws ndraws sdraws : ℕ → ℕ) (fuel word_count : ℕ) (append_char : Bool)
    (special_set : String) (no_append_numeral : Bool)
    (min_word max_word sample_size top_words : ℕ) (p : String) :
    effective_bounds none (some m) = some (m, (m : WithTop ℕ)) ∧
    (main words draws ndraws sdraws fuel word_count none (some m) append_char
      special_set no_append_numeral min_word max_word sample_size top_words =
      some (.password p) → p.length = m) ∧
    effective_bounds none none = some (24, ⊤) := by
  have hm1 : 1 ≤ m := Nat.one_le_iff_ne_zero.mpr hm
  have heb : effective_bounds none (some m) = some (m, (m : WithTop ℕ)) := by
    have hdl : default_lengths none (some m) =
        (some m, some (m : WithTop ℕ)) := by
      unfold default_lengths
      have ht : truthy (some m) = true := by simp [truthy, hm]
      simp [ht, truthy, hm]
    unfold effective_bounds
    rw [hdl]
    dsimp only
    rw [if_neg (lt_irrefl ((m : WithTop ℕ))), Nat.max_eq_right hm1]
  refine ⟨heb, ?_, by decide⟩
  intro h
  obtain ⟨a, b, cs, hab, _, hsel⟩ := main_password_src words draws ndraws
    sdraws fuel word_count none (some m) append_char special_set
    no_append_numeral min_word max_word sample_size top_words p h
  rw [heb] at hab
  simp only [Option.some.injEq, Prod.mk.injEq] at hab
  obtain ⟨ha, hb⟩ := hab
  obtain ⟨h1, h2, _⟩ := select_password_bounds cs a b p hsel
  rw [← ha] at h1
  rw [← hb] at h2
  have h2' : p.length ≤ m := by exact_mod_cast h2
  omega

/-- Witness for C10 at `max_length = 11`: the concrete run returns
`"AppleBanana"`, which indeed has exactly 11 characters. -/
theorem main_max_length_only_witness :
    effective_bounds none (some 11) = some (11, ((11 : ℕ) : WithTop ℕ)) ∧
    (main ["Apple", "Banana"] (fun k => k) (fun _ => 0) (fun _ => 0) 4 2 none
      (some 11) false "-_()/.,?!;:" true 4 8 1 2 =
      some (.password "AppleBanana") →
      ("AppleBanana" : String).length = 11) ∧
    effective_bounds none none = some (24, ⊤) :=
  main_max_length_only 11 (by decide) ["Apple", "Banana"] (fun k => k)
    (fun _ => 0) (fun _ => 0) 4 2 false "-_()/.,?!;:" true 4 8 1 2
    "AppleBanana"

/-- **C9, counterexample.** With `word_count` equal to (not exceeding) the
WordSet size, the stem generator can terminate: on the one-word set `["A"]`
with `word_count = 1` it produces the stem `"A"` after a single draw, so
"if `word_count ≥` WordSet size, the sampler never terminates" is false at
`word_count =` WordSet size. -/
theorem gen_alpha_passwords_terminates_at_size :
    (["A"] : List String).length ≤ 1 ∧
    gen_alpha_passwords ["A"] (fun _ => 0) 1 0 1 = some ("A", 1) := by
  decide

/-- **C9, amended.** If `word_count` strictly exceeds the WordSet size the
stem generator never terminates (no draw sequence and no amount of fuel
produces a stem); and `main` performs no eager validation of
`word_count` against the WordSet size: a configuration with
`word_count > |WordSet|` passes every pre-check and `main` then runs
forever (no failure message is ever returned). -/
theorem stem_generation_diverges :
    (∀ (word_set : List String) (draws : ℕ → ℕ) (need fuel pos : ℕ),
      word_set ≠ [] → word_set.length < need →
      non_repeating_take (random_stream word_set draws) fuel pos [] need =
        none) ∧
    (∀ fuel : ℕ,
      main ["Apple"] (fun k => k) (fun _ => 0) (fun _ => 0) fuel 2 (some 1)
        none false "-_()/.,?!;:" true 4 8 1 1 = none) := by
  constructor
  · intro ws dr need fuel pos hne hlt
    exact non_repeating_take_none ws dr hne need hlt fuel pos
  · intro fuel
    have hgen : ∀ pos,
        gen_alpha_passwords ["Apple"] (fun k => k) fuel pos 2 = none := by
      intro pos
      unfold gen_alpha_passwords
      rw [non_repeating_take_none ["Apple"] (fun k => k) (by decide) 2
        (by decide) fuel pos]
    have hbatch := base_passwords_take_none ["Apple"] (fun k => k)
      (fun _ => 0) (fun _ => 0) 2 (!true) "" fuel hgen 1 0 0 (by decide)
    have hmain : main ["Apple"] (fun k => k) (fun _ => 0) (fun _ => 0) fuel 2
        (some 1) none false "-_()/.,?!;:" true 4 8 1 1 =
        generation_stage ["Apple"] (fun k => k) (fun _ => 0) (fun _ => 0) 2
          (!true) "" fuel 1 1 ⊤ := rfl
    rw [hmain]
    unfold generation_stage
    rw [hbatch]

/-- Witness for the amended C9: with two requested words from the one-word
set, neither 3 draws nor a full `main` run with fuel 3 terminates. -/
theorem stem_generation_diverges_witness :
    non_repeating_take (random_stream ["Apple"] (fun k => k)) 3 0 [] 2 =
      none ∧
    main ["Apple"] (fun k => k) (fun _ => 0) (fun _ => 0) 3 2 (some 1) none
      false "-_()/.,?!;:" true 4 8 1 1 = none :=
  ⟨stem_generation_diverges.1 ["Apple"] (fun k => k) 2 3 0 (by decide)
    (by decide),
   stem_generation_diverges.2 3⟩

/-! ## Theorems for the decomposition claim -/

lemma uint32_le_iff {a b : UInt32} : a ≤ b ↔ a.toNat ≤ b.toNat := Iff.rfl

lemma char_upper_nat {c : Char} (h : c.isUpper = true) :
    65 ≤ c.val.toNat ∧ c.val.toNat ≤ 90 := by
  simp only [Char.isUpper, Bool.and_eq_true, decide_eq_true_eq, ge_iff_le] at h
  exact ⟨uint32_le_iff.mp h.1, uint32_le_iff.mp h.2⟩

lemma char_lower_nat {c : Char} (h : c.isLower = true) :
    97 ≤ c.val.toNat ∧ c.val.toNat ≤ 122 := by
  simp only [Char.isLower, Bool.and_eq_true, decide_eq_true_eq, ge_iff_le] at h
  exact ⟨uint32_le_iff.mp h.1, uint32_le_iff.mp h.2⟩

lemma char_digit_nat {c : Char} (h : c.isDigit = true) :
    48 ≤ c.val.toNat ∧ c.val.toNat ≤ 57 := by
  simp only [Char.isDigit, Bool.and_eq_true, decide_eq_true_eq, ge_iff_le] at h
  exact ⟨uint32_le_iff.mp h.1, uint32_le_iff.mp h.2⟩

lemma isLower_eq_false_of_isUpper {c : Char} (h : c.isUpper = true) :
    c.isLower = false := by
  have hu := char_upper_nat h
  by_contra hl
  rw [Bool.not_eq_false] at hl
  have := char_lower_nat hl
  omega

lemma isUpper_of_isAlpha_of_not_lower {c : Char} (ha : c.isAlpha = true)
    (hl : c.isLower = false) : c.isUpper = true := by
  simp only [Char.isAlpha, hl, Bool.or_false] at ha
  exact ha

lemma isAlpha_of_isUpper {c : Char} (h : c.isUpper = true) :
    c.isAlpha = true := by
  simp [Char.isAlpha, h]

lemma isAlpha_of_isLower {c : Char} (h : c.isLower = true) :
    c.isAlpha = true := by
  simp [Char.isAlpha, h]

lemma isAlpha_eq_false_of_isDigit {c : Char} (h : c.isDigit = true) :
    c.isAlpha = false := by
  have hd := char_digit_nat h
  by_contra ha
  rw [Bool.not_eq_false, Char.isAlpha, Bool.or_eq_true] at ha
  rcases ha with hu | hl
  · have := char_upper_nat hu; omega
  · have := char_lower_nat hl; omega

lemma isAlpha_eq_false_of_not_alnum {c : Char} (h : c.isAlphanum = false) :
    c.isAlpha = false := by
  rw [Char.isAlphanum, Bool.or_eq_false_iff] at h
  exact h.1

lemma isDigit_eq_false_of_not_alnum {c : Char} (h : c.isAlphanum = false) :
    c.isDigit = false := by
  rw [Char.isAlphanum, Bool.or_eq_false_iff] at h
  exact h.2

lemma toList_append (a b : String) : (a ++ b).toList = a.toList ++ b.toList :=
  rfl

lemma toList_mk (l : List Char) : (String.mk l).toList = l := rfl

lemma mk_toList (s : String) : String.mk s.toList = s := rfl

lemma join_toList (ws : List String) :
    (String.join ws).toList = (ws.map String.toList).flatten := by
  suffices h : ∀ (l : List String) (s : String),
      (l.foldl (fun r t => r ++ t) s).toList =
        s.toList ++ (l.map String.toList).flatten by
    calc (String.join ws).toList
        = (ws.foldl (fun r t => r ++ t) "").toList := rfl
      _ = "".toList ++ (ws.map String.toList).flatten := h ws ""
      _ = (ws.map String.toList).flatten := by
          rw [show ("" : String).toList = [] from rfl, List.nil_append]
  intro l
  induction l with
  | nil => intro s; simp
  | cons w l ih =>
    intro s
    simp only [List.foldl_cons, ih, List.map_cons, List.flatten_cons,
      toList_append, List.append_assoc]



lemma split_caps_go_append_lower (ls : List Char)
    (hls : ∀ x ∈ ls, x.isLower = true) :
    ∀ (acc cs : List Char),
      split_caps_go acc (ls ++ cs) = split_caps_go (ls.reverse ++ acc) cs := by
  induction ls with
  | nil => intro acc cs; simp
  | cons x ls ih =>
    intro acc cs
    have hx : x.isLower = true := hls x (List.mem_cons_self x ls)
    rw [List.cons_append]
    show split_caps_go acc (x :: (ls ++ cs)) = _
    rw [split_caps_go, if_pos hx]
    rw [ih (fun y hy => hls y (List.mem_cons_of_mem x hy)) (x :: acc) cs]
    congr 1
    simp

lemma split_caps_go_join (ws : List String) (hws : ∀ w ∈ ws, cap_word w) :
    ∀ acc : List Char,
      split_caps_go acc ((ws.map String.toList).flatten) =
        String.mk acc.reverse :: ws := by
  induction ws with
  | nil => intro acc; rfl
  | cons w ws ih =>
    intro acc
    obtain ⟨c, cls, hw, hc, hls⟩ := hws w (List.mem_cons_self w ws)
    rw [List.map_cons, List.flatten_cons, hw, List.cons_append]
    rw [split_caps_go, if_neg (by rw [isLower_eq_false_of_isUpper hc]; simp)]
    rw [split_caps_go_append_lower cls hls [c] ((ws.map String.toList).flatten)]
    rw [ih (fun v hv => hws v (List.mem_cons_of_mem w hv)) (cls.reverse ++ [c])]
    congr 1
    rw [List.reverse_append, List.reverse_reverse]
    rw [show ([c] : List Char).reverse = [c] from rfl, List.singleton_append]
    rw [← hw, mk_toList]



lemma split_caps_go_sound (cs : List Char) :
    ∀ acc : List Char,
      (∀ x ∈ cs, x.isAlpha = true) →
      (∃ u ls, acc.reverse = u :: ls ∧ u.isUpper = true ∧
        ∀ x ∈ ls, x.isLower = true) →
      (∀ w ∈ split_caps_go acc cs, cap_word w) ∧
      ((split_caps_go acc cs).map String.toList).flatten = acc.reverse ++ cs ∧
      split_caps_go acc cs ≠ [] := by
  induction cs with
  | nil =>
    intro acc _ hacc
    obtain ⟨u, ls, hrev, hu, hls⟩ := hacc
    refine ⟨?_, by simp [split_caps_go, toList_mk], by simp [split_caps_go]⟩
    intro w hw
    rw [split_caps_go, List.mem_singleton] at hw
    subst hw
    exact ⟨u, ls, by rw [toList_mk, hrev], hu, hls⟩
  | cons x cs ih =>
    intro acc halpha hacc
    obtain ⟨u, ls, hrev, hu, hls⟩ := hacc
    have hxalpha : x.isAlpha = true := halpha x (List.mem_cons_self x cs)
    have hcs : ∀ y ∈ cs, y.isAlpha = true :=
      fun y hy => halpha y (List.mem_cons_of_mem x hy)
    by_cases hx : x.isLower = true
    · rw [split_caps_go, if_pos hx] at *
      have hinv : ∃ u2 ls2, (x :: acc).reverse = u2 :: ls2 ∧
          u2.isUpper = true ∧ ∀ y ∈ ls2, y.isLower = true := by
        refine ⟨u, ls ++ [x], ?_, hu, ?_⟩
        · rw [List.reverse_cons, hrev]
          rfl
        · intro y hy
          rcases List.mem_append.mp hy with hy | hy
          · exact hls y hy
          · rw [List.mem_singleton] at hy
            subst hy
            exact hx
      obtain ⟨h1, h2, h3⟩ := ih (x :: acc) hcs hinv
      refine ⟨h1, ?_, h3⟩
      rw [h2, List.reverse_cons, hrev]
      simp
    · rw [Bool.not_eq_true] at hx
      have hxup : x.isUpper = true := isUpper_of_isAlpha_of_not_lower hxalpha hx
      rw [split_caps_go, if_neg (by rw [hx]; simp)]
      have hinv : ∃ u2 ls2, ([x] : List Char).reverse = u2 :: ls2 ∧
          u2.isUpper = true ∧ ∀ y ∈ ls2, y.isLower = true :=
        ⟨x, [], rfl, hxup, by simp⟩
      obtain ⟨h1, h2, h3⟩ := ih [x] hcs hinv
      refine ⟨?_, ?_, by simp⟩
      · intro w hw
        rcases List.mem_cons.mp hw with hw | hw
        · subst hw
          exact ⟨u, ls, by rw [toList_mk, hrev], hu, hls⟩
        · exact h1 w hw
      · rw [List.map_cons, List.flatten_cons, h2, toList_mk]
        rfl



lemma split_caps_flatten (ws : List String) (hne : ws ≠ [])
    (hcap : ∀ w ∈ ws, cap_word w) :
    split_caps ((ws.map String.toList).flatten) = ws := by
  cases ws with
  | nil => exact absurd rfl hne
  | cons w ws2 =>
    obtain ⟨u, ls, hw, hu, hls⟩ := hcap w (List.mem_cons_self w ws2)
    rw [List.map_cons, List.flatten_cons, hw, List.cons_append]
    rw [split_caps]
    rw [split_caps_go_append_lower ls hls [u] ((ws2.map String.toList).flatten)]
    rw [split_caps_go_join ws2
      (fun v hv => hcap v (List.mem_cons_of_mem w hv)) (ls.reverse ++ [u])]
    congr 1
    rw [List.reverse_append, List.reverse_reverse]
    rw [show ([u] : List Char).reverse = [u] from rfl, List.singleton_append]
    rw [← hw, mk_toList]

lemma flatten_alpha (ws : List String) (hcap : ∀ w ∈ ws, cap_word w) :
    ∀ x ∈ (ws.map String.toList).flatten, x.isAlpha = true := by
  intro x hx
  rw [List.mem_flatten] at hx
  obtain ⟨lc, hlc, hxlc⟩ := hx
  rw [List.mem_map] at hlc
  obtain ⟨w, hwmem, hwl⟩ := hlc
  obtain ⟨u, ls, hw, hu, hls⟩ := hcap w hwmem
  rw [← hwl, hw] at hxlc
  rcases List.mem_cons.mp hxlc with hx | hx
  · subst hx; exact isAlpha_of_isUpper hu
  · exact isAlpha_of_isLower (hls x hx)



lemma password_parts_shape (p : String) (u0 : Char) (t rest : List Char)
    (htake : p.toList.takeWhile Char.isAlpha = u0 :: t)
    (hdrop : p.toList.dropWhile Char.isAlpha = rest)
    (hup : u0.isUpper = true) :
    password_parts p =
      (match rest with
       | [] => some (split_caps (u0 :: t), "", "")
       | [a] =>
         if a.isDigit then some (split_caps (u0 :: t), String.mk [a], "")
         else if !a.isAlphanum then
           some (split_caps (u0 :: t), "", String.mk [a])
         else none
       | [a, b] =>
         if a.isDigit && !b.isAlphanum then
           some (split_caps (u0 :: t), String.mk [a], String.mk [b])
         else if !a.isAlphanum && b = '\n' then
           some (split_caps (u0 :: t), "", String.mk [a])
         else none
       | [a, b, e] =>
         if a.isDigit && !b.isAlphanum && e = '\n' then
           some (split_caps (u0 :: t), String.mk [a], String.mk [b])
         else none
       | _ => none) := by
  unfold password_parts
  simp only [htake, hdrop]
  rw [if_pos hup]
  rcases rest with _ | ⟨a, _ | ⟨b, _ | ⟨e, _ | r⟩⟩⟩ <;> rfl



lemma password_parts_compose (ws : List String) (d c : String)
    (hne : ws ≠ []) (hcap : ∀ w ∈ ws, cap_word w)
    (hd : numeral_part_ok d) (hc : special_part_ok c) :
    password_parts (compose_password ws d c) = some (ws, d, c) := by
  have hPL : (compose_password ws d c).toList =
      (ws.map String.toList).flatten ++ (d.toList ++ c.toList) := by
    unfold compose_password
    rw [toList_append, toList_append, join_toList, List.append_assoc]
  have halpha := flatten_alpha ws hcap
  obtain ⟨w0, ws2, hws⟩ : ∃ w0 ws2, ws = w0 :: ws2 := by
    cases ws with
    | nil => exact absurd rfl hne
    | cons a l => exact ⟨a, l, rfl⟩
  obtain ⟨u0, ls0, hw0, hu0, hls0⟩ :=
    hcap w0 (by rw [hws]; exact List.mem_cons_self w0 ws2)
  have hflat : (ws.map String.toList).flatten =
      u0 :: (ls0 ++ (ws2.map String.toList).flatten) := by
    rw [hws, List.map_cons, List.flatten_cons, hw0, List.cons_append]
  have hsplit : split_caps
      (u0 :: (ls0 ++ (ws2.map String.toList).flatten)) = ws := by
    rw [← hflat]
    exact split_caps_flatten ws hne hcap
  have htake0 : (compose_password ws d c).toList.takeWhile Char.isAlpha =
      ((ws.map String.toList).flatten) ++
        (d.toList ++ c.toList).takeWhile Char.isAlpha := by
    rw [hPL, List.takeWhile_append_of_pos halpha]
  have hdrop0 : (compose_password ws d c).toList.dropWhile Char.isAlpha =
      (d.toList ++ c.toList).dropWhile Char.isAlpha := by
    rw [hPL, List.dropWhile_append_of_pos halpha]
  rcases hd with hd0 | ⟨y, hdy, hydig⟩ <;>
    rcases hc with hc0 | ⟨x, hcx, hxna⟩
  · subst hd0; subst hc0
    have htake : (compose_password ws "" "").toList.takeWhile Char.isAlpha =
        u0 :: (ls0 ++ (ws2.map String.toList).flatten) := by
      rw [htake0,
        show List.takeWhile Char.isAlpha ("".toList ++ "".toList) = []
          from rfl,
        List.append_nil, hflat]
    have hdrop : (compose_password ws "" "").toList.dropWhile Char.isAlpha =
        ([] : List Char) := by
      rw [hdrop0]
      rfl
    rw [password_parts_shape _ u0 _ [] htake hdrop hu0, hsplit]
  · subst hd0; subst hcx
    have hxa : x.isAlpha = false := isAlpha_eq_false_of_not_alnum hxna
    have htl : ("" : String).toList ++ (String.mk [x]).toList = [x] := rfl
    have htake : (compose_password ws "" (String.mk [x])).toList.takeWhile
        Char.isAlpha = u0 :: (ls0 ++ (ws2.map String.toList).flatten) := by
      rw [htake0, htl, List.takeWhile_cons_of_neg (by rw [hxa]; simp),
        List.append_nil, hflat]
    have hdrop : (compose_password ws "" (String.mk [x])).toList.dropWhile
        Char.isAlpha = [x] := by
      rw [hdrop0, htl, List.dropWhile_cons_of_neg (by rw [hxa]; simp)]
    rw [password_parts_shape _ u0 _ [x] htake hdrop hu0]
    dsimp only
    rw [if_neg (by rw [isDigit_eq_false_of_not_alnum hxna]; simp),
      if_pos (by rw [hxna]; rfl), hsplit]
  · subst hdy; subst hc0
    have hya : y.isAlpha = false := isAlpha_eq_false_of_isDigit hydig
    have htl : (String.mk [y]).toList ++ ("" : String).toList = [y] := rfl
    have htake : (compose_password ws (String.mk [y]) "").toList.takeWhile
        Char.isAlpha = u0 :: (ls0 ++ (ws2.map String.toList).flatten) := by
      rw [htake0, htl, List.takeWhile_cons_of_neg (by rw [hya]; simp),
        List.append_nil, hflat]
    have hdrop : (compose_password ws (String.mk [y]) "").toList.dropWhile
        Char.isAlpha = [y] := by
      rw [hdrop0, htl, List.dropWhile_cons_of_neg (by rw [hya]; simp)]
    rw [password_parts_shape _ u0 _ [y] htake hdrop hu0]
    dsimp only
    rw [if_pos hydig, hsplit]
  · subst hdy; subst hcx
    have hya : y.isAlpha = false := isAlpha_eq_false_of_isDigit hydig
    have htl : (String.mk [y]).toList ++ (String.mk [x]).toList = [y, x] := rfl
    have htake : (compose_password ws (String.mk [y])
        (String.mk [x])).toList.takeWhile Char.isAlpha =
        u0 :: (ls0 ++ (ws2.map String.toList).flatten) := by
      rw [htake0, htl, List.takeWhile_cons_of_neg (by rw [hya]; simp),
        List.append_nil, hflat]
    have hdrop : (compose_password ws (String.mk [y])
        (String.mk [x])).toList.dropWhile Char.isAlpha = [y, x] := by
      rw [hdrop0, htl, List.dropWhile_cons_of_neg (by rw [hya]; simp)]
    rw [password_parts_shape _ u0 _ [y, x] htake hdrop hu0]
    dsimp only
    rw [if_pos (by rw [hydig, hxna]; rfl), hsplit]



lemma password_parts_sound (p : String) (ws : List String) (d c : String)
    (h : password_parts p = some (ws, d, c)) :
    (p = compose_password ws d c ∨ p = compose_password ws d c ++ "\n") ∧
      ws ≠ [] ∧ (∀ w ∈ ws, cap_word w) ∧
      numeral_part_ok d ∧ special_part_ok c := by
  unfold password_parts at h
  dsimp only at h
  split at h
  · exact absurd h (by simp)
  next u0 t hlet =>
    split at h
    case isFalse => exact absurd h (by simp)
    case isTrue hup =>
      rw [hlet] at h
      have halpha_t : ∀ x ∈ t, x.isAlpha = true := by
        intro x hx
        exact List.mem_takeWhile_imp
          (by rw [hlet]; exact List.mem_cons_of_mem u0 hx)
      obtain ⟨hall, hjoin, hne⟩ := split_caps_go_sound t [u0] halpha_t
        ⟨u0, [], rfl, hup, by simp⟩
      have hsplit_eq : split_caps (u0 :: t) = split_caps_go [u0] t := rfl
      have hjoin2 : ((split_caps (u0 :: t)).map String.toList).flatten =
          u0 :: t := by
        rw [hsplit_eq, hjoin]
        rfl
      have hPdecomp : p.toList =
          (u0 :: t) ++ p.toList.dropWhile Char.isAlpha := by
        rw [← hlet, List.takeWhile_append_dropWhile]
      have hcompose : ∀ dl cl : List Char,
          p.toList.dropWhile Char.isAlpha = dl ++ cl →
          p = compose_password (split_caps (u0 :: t)) (String.mk dl)
            (String.mk cl) := by
        intro dl cl hdc
        rw [← String.toList_inj]
        unfold compose_password
        rw [toList_append, toList_append, join_toList, hjoin2,
          List.append_assoc,
          show (String.mk dl).toList = dl from rfl,
          show (String.mk cl).toList = cl from rfl, ← hdc]
        exact hPdecomp
      have hcompose_nl : ∀ dl cl : List Char,
          p.toList.dropWhile Char.isAlpha = dl ++ (cl ++ ['\n']) →
          p = compose_password (split_caps (u0 :: t)) (String.mk dl)
            (String.mk cl) ++ "\n" := by
        intro dl cl hdc
        have hp2 : p.toList = (u0 :: t) ++ (dl ++ (cl ++ ['\n'])) := by
          rw [hPdecomp, hdc]
        rw [← String.toList_inj, toList_append]
        unfold compose_password
        rw [toList_append, toList_append, join_toList, hjoin2,
          show (String.mk dl).toList = dl from rfl,
          show (String.mk cl).toList = cl from rfl,
          show ("\n" : String).toList = ['\n'] from rfl, hp2]
        simp [List.append_assoc]
      split at h
      · -- rest = []
        next hdrop =>
        simp only [Option.some.injEq, Prod.mk.injEq] at h
        obtain ⟨hws, hd, hc⟩ := h
        subst hws; subst hd; subst hc
        refine ⟨?_, hne, hall, Or.inl rfl, Or.inl rfl⟩
        refine Or.inl ?_
        have := hcompose [] [] (by rw [hdrop]; rfl)
        simpa using this
      · -- rest = [a]
        next a hdrop =>
        by_cases hdig : a.isDigit = true
        · rw [if_pos hdig] at h
          simp only [Option.some.injEq, Prod.mk.injEq] at h
          obtain ⟨hws, hd, hc⟩ := h
          subst hws; subst hd; subst hc
          refine ⟨?_, hne, hall, Or.inr ⟨a, rfl, hdig⟩, Or.inl rfl⟩
          refine Or.inl ?_
          have := hcompose [a] [] (by rw [hdrop]; rfl)
          simpa using this
        · rw [if_neg hdig] at h
          by_cases hna : a.isAlphanum = false
          · rw [if_pos (by rw [hna]; rfl)] at h
            simp only [Option.some.injEq, Prod.mk.injEq] at h
            obtain ⟨hws, hd, hc⟩ := h
            subst hws; subst hd; subst hc
            refine ⟨?_, hne, hall, Or.inl rfl, Or.inr ⟨a, rfl, hna⟩⟩
            refine Or.inl ?_
            have := hcompose [] [a] (by rw [hdrop]; rfl)
            simpa using this
          · rw [Bool.not_eq_false] at hna
            rw [if_neg (by rw [hna]; simp)] at h
            exact absurd h (by simp)
      · -- rest = [a, b]
        next a b hdrop =>
        split at h
        · next hguard =>
          rw [Bool.and_eq_true] at hguard
          obtain ⟨hdig, hnb⟩ := hguard
          rw [Bool.not_eq_true'] at hnb
          simp only [Option.some.injEq, Prod.mk.injEq] at h
          obtain ⟨hws, hd, hc⟩ := h
          subst hws; subst hd; subst hc
          refine ⟨?_, hne, hall, Or.inr ⟨a, rfl, hdig⟩, Or.inr ⟨b, rfl, hnb⟩⟩
          refine Or.inl ?_
          have := hcompose [a] [b] (by rw [hdrop]; rfl)
          simpa using this
        · split at h
          · next hguard =>
            simp only [Bool.and_eq_true, Bool.not_eq_true',
              decide_eq_true_eq] at hguard
            obtain ⟨hna, hb⟩ := hguard
            subst hb
            simp only [Option.some.injEq, Prod.mk.injEq] at h
            obtain ⟨hws, hd, hc⟩ := h
            subst hws; subst hd; subst hc
            refine ⟨?_, hne, hall, Or.inl rfl, Or.inr ⟨a, rfl, hna⟩⟩
            refine Or.inr ?_
            exact hcompose_nl [] [a] (by rw [hdrop]; rfl)
          · exact absurd h (by simp)
      · -- rest = [a, b, e]
        next a b e hdrop =>
        split at h
        · next hguard =>
          simp only [Bool.and_eq_true, Bool.not_eq_true',
            decide_eq_true_eq] at hguard
          obtain ⟨⟨hdig, hnb⟩, he⟩ := hguard
          subst he
          simp only [Option.some.injEq, Prod.mk.injEq] at h
          obtain ⟨hws, hd, hc⟩ := h
          subst hws; subst hd; subst hc
          refine ⟨?_, hne, hall, Or.inr ⟨a, rfl, hdig⟩,
            Or.inr ⟨b, rfl, hnb⟩⟩
          refine Or.inr ?_
          exact hcompose_nl [a] [b] (by rw [hdrop]; rfl)
        · exact absurd h (by simp)
      · exact absurd h (by simp)

/-- **C8, counterexample.**  The string `"Apple!\n"` is not of the shape
"capitalized words, optional digit, optional non-alphanumeric character"
(no valid parts compose to it), yet `password_parts` does not raise a
FormatError on it: Python's `$` matches just before a trailing newline, so
it decomposes to `(["Apple"], "", "!")`. -/
theorem password_parts_accepts_trailing_newline :
    password_parts "Apple!\n" = some (["Apple"], "", "!") ∧
    ∀ (ws : List String) (d c : String), ws ≠ [] →
      (∀ w ∈ ws, cap_word w) → numeral_part_ok d → special_part_ok c →
      ("Apple!\n" : String) ≠ compose_password ws d c := by
  have heval : password_parts "Apple!\n" = some (["Apple"], "", "!") := by
    decide
  refine ⟨heval, ?_⟩
  intro ws d c hne hcap hd hc heq
  have hrt := password_parts_compose ws d c hne hcap hd hc
  rw [← heq, heval] at hrt
  simp only [Option.some.injEq, Prod.mk.injEq] at hrt
  obtain ⟨hws, hdd, hcc⟩ := hrt
  subst hws; subst hdd; subst hcc
  exact absurd heq (by decide)

/-- **C8, amended.**  Round-trip: composing a password from a non-empty
list of capitalized words, an optional single digit and an optional single
non-alphanumeric character (in that fixed order, with no separators) and
then decomposing it recovers exactly the original word list, digit and
special character.  Conversely, every successful decomposition arises from
a string of exactly that shape — or of that shape followed by one trailing
newline, which Python's `$` tolerates — so `password_parts` raises the
FormatError (embedded as `none`) exactly on the strings that are not of
the shape even after discarding one trailing newline. -/
theorem password_parts_round_trip :
    (∀ (ws : List String) (d c : String), ws ≠ [] →
      (∀ w ∈ ws, cap_word w) → numeral_part_ok d → special_part_ok c →
      password_parts (compose_password ws d c) = some (ws, d, c)) ∧
    (∀ (p : String) (ws : List String) (d c : String),
      password_parts p = some (ws, d, c) →
      (p = compose_password ws d c ∨
        p = compose_password ws d c ++ "\n") ∧
        ws ≠ [] ∧ (∀ w ∈ ws, cap_word w) ∧
        numeral_part_ok d ∧ special_part_ok c) :=
  ⟨password_parts_compose, password_parts_sound⟩

/-- Witness for the amended C8: composing `["Apple", "Banana"]`, `"3"`,
`"!"` and decomposing `"AppleBanana3!"` both round-trip. -/
theorem password_parts_round_trip_witness :
    password_parts (compose_password ["Apple", "Banana"] "3" "!") =
      some (["Apple", "Banana"], "3", "!") ∧
    ((("AppleBanana3!" : String) =
          compose_password ["Apple", "Banana"] "3" "!" ∨
        ("AppleBanana3!" : String) =
          compose_password ["Apple", "Banana"] "3" "!" ++ "\n") ∧
      (["Apple", "Banana"] : List String) ≠ [] ∧
      (∀ w ∈ (["Apple", "Banana"] : List String), cap_word w) ∧
      numeral_part_ok "3" ∧ special_part_ok "!") :=
  ⟨password_parts_round_trip.1 ["Apple", "Banana"] "3" "!" (by decide)
    (by
      intro w hw
      rcases List.mem_cons.mp hw with h | h
      · subst h
        exact ⟨'A', ['p', 'p', 'l', 'e'], rfl, by decide, by decide⟩
      · rcases List.mem_cons.mp h with h | h
        · subst h
          exact ⟨'B', ['a', 'n', 'a', 'n', 'a'], rfl, by decide, by decide⟩
        · simp at h)
    (Or.inr ⟨'3', rfl, by decide⟩) (Or.inr ⟨'!', rfl, by decide⟩),
   password_parts_round_trip.2 "AppleBanana3!" ["Apple", "Banana"] "3" "!"
    (by decide)⟩

end MakePass
